import Mathlib

/-!
Shallow embedding of the garbage collector of the terrier storage engine
(src/storage/garbage_collector.cpp), together with the pieces of the
transaction and logging subsystems the GC claims depend on.

Queues (`transaction::TransactionQueue`) are modelled as Lean lists whose
head is the queue front: `pop_front` is `List.tail`-style pattern matching
and `push_front` is `List.cons`.  Side effects of a phase (deleting a
transaction object, calling `TruncateVersionChain`, reclaiming slots and
varlen buffers, pushing onto the deallocation queue) are recorded in an
explicit trace so that theorems can speak about which calls happened.
-/

namespace Terrier

/-- Modelled from the spec (transaction_util.h is not under src/):
timestamps are raw 64-bit values with the running bit at bit 63; committed
values are below the running bit, running values at or above it, and
`NewerThan(a, b)` is raw order `a > b` (committed < running). -/
def RUNNING_BIT : Nat := 2 ^ 63

/-- `transaction::TransactionUtil::NewerThan(a, b)`: `a > b` on raw values. -/
def newerThan (a b : Nat) : Bool := b < a

/-- `transaction::TransactionUtil::Committed(t)`: the running bit is clear. -/
def tsCommitted (t : Nat) : Bool := t < RUNNING_BIT

/-- `storage::DeltaRecordType`. -/
inductive DeltaRecordType where
  | insert
  | update
  | delete
deriving DecidableEq, Repr

/-- `storage::VarlenEntry`, reduced to the fields the GC reads:
whether `NeedReclaim()` holds and the `Content()` pointer (a tag). -/
structure VarlenEntry where
  needReclaim : Bool
  content : Nat
deriving DecidableEq, Repr

/-- An undo record as seen by the unlink phase: owning table pointer
(`none` models a null `DataTable *`), tuple slot, record type, and the
delta column list (pairs of column id and varlen payload read through
`Delta()->AccessWithNullCheck`). -/
structure UndoRec where
  table : Option Nat
  slot : Nat
  rtype : DeltaRecordType
  delta : List (Nat × Option VarlenEntry)
deriving DecidableEq, Repr

/-- `transaction::TransactionContext`, reduced to the fields the GC reads:
`TxnId().load()` (the finish timestamp once the transaction completed),
the undo buffer, `log_processed_` and `Aborted()`. -/
structure TxnCtx where
  tid : Nat
  undoBuffer : List UndoRec
  logProcessed : Bool
  aborted : Bool
deriving DecidableEq, Repr

/-! ## Phase 2 — `GarbageCollector::ProcessDeallocateQueue` -/

/-- The `while (!txns_to_deallocate_.empty())` loop: pop the front, delete
the transaction if `log_processed_`, else `push_front` it onto `requeue`.
Returns `(txns_processed, requeue, deleted)` where `deleted` records the
transactions passed to `delete`. -/
def deallocateLoop : List TxnCtx → List TxnCtx → Nat → List TxnCtx →
    Nat × List TxnCtx × List TxnCtx
  | [], requeue, n, deleted => (n, requeue, deleted)
  | txn :: rest, requeue, n, deleted =>
    if txn.logProcessed then deallocateLoop rest requeue (n + 1) (deleted ++ [txn])
    else deallocateLoop rest (txn :: requeue) n deleted

/-- `GarbageCollector::ProcessDeallocateQueue`.  The queue is walked only
when `NewerThan(oldest_txn, last_unlinked_)`; afterwards
`txns_to_deallocate_` is replaced by `requeue`.  Returns
`(txns_processed, new txns_to_deallocate_, deleted)`. -/
def processDeallocateQueue (oldest lastUnlinked : Nat) (q : List TxnCtx) :
    Nat × List TxnCtx × List TxnCtx :=
  if newerThan oldest lastUnlinked then deallocateLoop q [] 0 []
  else (0, q, [])

/-! ## Phase 3 — `GarbageCollector::ProcessUnlinkQueue` -/

/-- An observable side effect performed by the unlink phase. -/
inductive GCAction where
  | deleteTxn (t : TxnCtx)
  | truncate (table : Nat) (slot : Nat)
  | reclaimSlot (t : TxnCtx) (r : UndoRec)
  | reclaimVarlen (t : TxnCtx) (r : UndoRec)
  | pushDealloc (t : TxnCtx)
  | requeueTxn (t : TxnCtx)
deriving DecidableEq, Repr

/-- State threaded through the unlink loop: the per-tick `visited_slots`
set, the local `requeue`, the `txns_to_deallocate_` queue, the
`txns_processed` counter and the trace of side effects. -/
structure UnlinkState where
  visited : List Nat
  requeueQ : List TxnCtx
  deallocQ : List TxnCtx
  count : Nat
  trace : List GCAction
deriving DecidableEq, Repr

/-- The body of `for (auto &undo_record : txn->undo_buffer_)`:
`TruncateVersionChain` runs only when the table pointer is non-null and
`visited_slots.insert(slot).second` (the insert happens only then, because
`&&` short-circuits); `ReclaimSlotIfDeleted` and `ReclaimBufferIfVarlen`
run exactly when the transaction did not abort. -/
def unlinkRecordStep (txn : TxnCtx) (r : UndoRec) (s : UnlinkState) : UnlinkState :=
  let s1 :=
    match r.table with
    | some tbl =>
      if r.slot ∈ s.visited then s
      else { s with visited := r.slot :: s.visited,
                    trace := s.trace ++ [GCAction.truncate tbl r.slot] }
    | none => s
  if txn.aborted then s1
  else { s1 with trace := s1.trace ++ [GCAction.reclaimSlot txn r, GCAction.reclaimVarlen txn r] }

/-- The `for (auto &undo_record : txn->undo_buffer_)` loop. -/
def foldRecords (txn : TxnCtx) (rs : List UndoRec) (s : UnlinkState) : UnlinkState :=
  rs.foldl (fun acc r => unlinkRecordStep txn r acc) s

/-- One iteration of `while (!txns_to_unlink_.empty())`: an empty undo
buffer means immediate `delete`; else when
`NewerThan(oldest_txn, txn->TxnId())` every undo record is processed and
the transaction is pushed (front) onto `txns_to_deallocate_`; else the
transaction is pushed (front) onto `requeue`. -/
def unlinkTxnStep (oldest : Nat) (txn : TxnCtx) (s : UnlinkState) : UnlinkState :=
  if txn.undoBuffer.isEmpty then
    { s with count := s.count + 1, trace := s.trace ++ [GCAction.deleteTxn txn] }
  else if newerThan oldest txn.tid then
    let s1 := foldRecords txn txn.undoBuffer s
    { s1 with deallocQ := txn :: s1.deallocQ, count := s1.count + 1,
              trace := s1.trace ++ [GCAction.pushDealloc txn] }
  else
    { s with requeueQ := txn :: s.requeueQ, trace := s.trace ++ [GCAction.requeueTxn txn] }

/-- `GarbageCollector::ProcessUnlinkQueue`.  The completed transactions
from the manager are spliced at the front of `txns_to_unlink_`, the loop
runs over the combined queue, and `txns_to_unlink_` is replaced by
`requeue`.  Returns the final state (count, new unlink queue, new
deallocation queue, trace). -/
def processUnlinkQueue (oldest : Nat) (completed unlinkQ deallocQ : List TxnCtx) :
    UnlinkState :=
  (completed ++ unlinkQ).foldl (fun acc t => unlinkTxnStep oldest t acc)
    { visited := [], requeueQ := [], deallocQ := deallocQ, count := 0, trace := [] }

/-! ## Phase 1 — `GarbageCollector::ProcessDeferredActions`

The bodies of the deferred actions are opaque; an action is a pair of its
timestamp and a tag standing for the function pointer. -/

/-- Modelled from the spec: `deferred_actions_` is declared in
garbage_collector.h, which is not under src/; the spec describes it as "a
priority queue of `(ts, fn)` pairs", so pushes keep the pending list in
ascending timestamp order with `front` its minimum. -/
def pushByTs (a : Nat × Nat) : List (Nat × Nat) → List (Nat × Nat)
  | [] => [a]
  | b :: rest => if a.1 < b.1 then a :: b :: rest else b :: pushByTs a rest

/-- The `while ((!deferred_actions_.empty()) && front.first <= oldest)`
loop: pop and invoke from the front while the front timestamp is at most
`oldest_txn`.  Returns `(invoked, remaining)` with `invoked` in call
order. -/
def drainDeferred (oldest : Nat) : List (Nat × Nat) → List (Nat × Nat) × List (Nat × Nat)
  | [] => ([], [])
  | a :: rest =>
    if a.1 ≤ oldest then
      let p := drainDeferred oldest rest
      (a :: p.1, p.2)
    else ([], a :: rest)

/-- `GarbageCollector::ProcessDeferredActions`: first every action handed
over by `DeferredActionsForGC` is pushed onto the pending queue, then the
drain loop runs against `OldestTransactionStartTime`. -/
def processDeferredActions (oldest : Nat) (newActions pending : List (Nat × Nat)) :
    List (Nat × Nat) × List (Nat × Nat) :=
  drainDeferred oldest (newActions.foldl (fun acc a => pushByTs a acc) pending)

/-! ## `GarbageCollector::PerformGarbageCollection` — one GC tick -/

/-- GC-owned state across ticks. -/
structure GCState where
  deferred : List (Nat × Nat)
  deallocQ : List TxnCtx
  unlinkQ : List TxnCtx
  lastUnlinked : Nat
deriving DecidableEq, Repr

/-- What the transaction manager answers during a tick.
`OldestTransactionStartTime` is read once per phase (other transactions
may begin or finish between the reads, so the three values are kept
separate), `GetTimestamp` gives `now`. -/
structure TMView where
  newDeferred : List (Nat × Nat)
  oldestDeferred : Nat
  oldestDealloc : Nat
  oldestUnlink : Nat
  completed : List TxnCtx
  now : Nat
deriving DecidableEq, Repr

/-- Result of one tick: the returned pair
`(txns_deallocated, txns_unlinked)`, the new GC state, the deferred
actions invoked, the transactions deleted by the deallocate phase, and
the unlink-phase trace. -/
structure TickResult where
  deallocated : Nat
  unlinked : Nat
  state : GCState
  invoked : List (Nat × Nat)
  deleted : List TxnCtx
  trace : List GCAction
deriving DecidableEq, Repr

/-- `GarbageCollector::PerformGarbageCollection`: deferred actions, then
the deallocate phase, then the unlink phase; `last_unlinked_` is set to
`GetTimestamp()` only when `txns_unlinked > 0`.  (`ProcessIndexes` touches
no GC state modelled here.) -/
def performGarbageCollection (tm : TMView) (s : GCState) : TickResult :=
  let d := processDeferredActions tm.oldestDeferred tm.newDeferred s.deferred
  let pd := processDeallocateQueue tm.oldestDealloc s.lastUnlinked s.deallocQ
  let u := processUnlinkQueue tm.oldestUnlink tm.completed s.unlinkQ pd.2.1
  let lu := if u.count > 0 then tm.now else s.lastUnlinked
  { deallocated := pd.1, unlinked := u.count,
    state := { deferred := d.2, deallocQ := u.deallocQ, unlinkQ := u.requeueQ,
               lastUnlinked := lu },
    invoked := d.1, deleted := pd.2.2, trace := u.trace }

/-! ## `GarbageCollector::TruncateVersionChain`

Version-chain memory for one tuple slot: the slot's head version pointer
and, for every node (named by a `Nat` id), its `next` pointer and its
timestamp.  The GC is single-threaded, but other threads may move the
slot's head pointer between the GC's atomic accesses; one pass of the
procedure therefore takes two environment inputs: whether the
`CompareAndSwapVersionPtr` in the cut-whole-chain branch succeeds, and
what `AtomicallyReadVersionPtr` returns at the final recheck. -/

structure ChainMem where
  head : Option Nat
  next : Nat → Option Nat
  ts : Nat → Nat

/-- Follow `next` pointers `k` times from node `c` (`some` iff the walk
stays inside the chain). -/
def nthNext (mem : ChainMem) : Nat → Nat → Option Nat
  | 0, c => some c
  | k + 1, c =>
    match mem.next c with
    | none => none
    | some n => nthNext mem k n

/-- Outcome of the interior traversal `while (true) {...}`. -/
inductive TravResult where
  | nullNext
  | breakAt (curr : Nat)
  | outOfFuel
deriving DecidableEq, Repr

/-- The interior traversal: `next := curr->Next()`; return on null;
break once `NewerThan(oldest, next->Timestamp())`; else advance.  `fuel`
bounds the walk (the embedding artifact for a finite chain). -/
def chainTraverse (mem : ChainMem) (oldest : Nat) : Nat → Nat → TravResult
  | 0, _ => TravResult.outOfFuel
  | fuel + 1, curr =>
    match mem.next curr with
    | none => TravResult.nullNext
    | some nxt =>
      if newerThan oldest (mem.ts nxt) then TravResult.breakAt curr
      else chainTraverse mem oldest fuel nxt

/-- Result of one pass of `TruncateVersionChain`: either the procedure
returns to its caller, or it restarts (the recursive tail call), each
with the memory as left by the pass. -/
inductive PassResult where
  | ret (mem : ChainMem)
  | restart (mem : ChainMem)
  | outOfFuel

/-- One pass of `GarbageCollector::TruncateVersionChain`:
read the head (null means return); if `NewerThan(oldest, head.ts)` CAS
the head to null, restarting on CAS failure; otherwise traverse the
interior, returning if a null `next` is met, else storing null into
`curr->Next()` and restarting exactly when the store hit the head
(`curr == version_ptr`), the head was not committed, and the re-read head
pointer differs from the original. -/
def truncatePass (oldest : Nat) (casOk : Bool) (headAtRecheck : Option Nat)
    (mem : ChainMem) (fuel : Nat) : PassResult :=
  match mem.head with
  | none => PassResult.ret mem
  | some vp =>
    if newerThan oldest (mem.ts vp) then
      if casOk then PassResult.ret { mem with head := none }
      else PassResult.restart mem
    else
      match chainTraverse mem oldest fuel vp with
      | TravResult.outOfFuel => PassResult.outOfFuel
      | TravResult.nullNext => PassResult.ret mem
      | TravResult.breakAt curr =>
        let mem1 : ChainMem := { mem with next := Function.update mem.next curr none }
        if curr = vp ∧ tsCommitted (mem.ts vp) = false ∧ headAtRecheck ≠ some vp then
          PassResult.restart mem1
        else PassResult.ret mem1

/-- Whether a pass ended in the recursive restart call. -/
def isRestart : PassResult → Bool
  | PassResult.restart _ => true
  | _ => false

/-- The memory left by a pass (`none` when the traversal fuel ran out). -/
def passMem : PassResult → Option ChainMem
  | PassResult.ret m => some m
  | PassResult.restart m => some m
  | PassResult.outOfFuel => none

/-! ## `GarbageCollector::ReclaimBufferIfVarlen` -/

/-- `storage::BlockLayout`, reduced to what the GC reads:
`NumColumns()` and `IsVarlen(col_id)`. -/
structure BlockLayout where
  numColumns : Nat
  isVarlen : Nat → Bool

/-- `GarbageCollector::ReclaimBufferIfVarlen`, acting on the
`loose_ptrs_` list of the owning transaction.  `access col` models
`accessor.AccessWithNullCheck(undo_record->Slot(), col)` on the base
tuple (null becomes `none`).  INSERT records reclaim nothing; DELETE
records walk every column of the layout; UPDATE records walk the delta's
column list; a payload is pushed back when it is non-null and
`NeedReclaim()`. -/
def reclaimBufferIfVarlen (layout : BlockLayout) (access : Nat → Option VarlenEntry)
    (r : UndoRec) (loosePtrs : List Nat) : List Nat :=
  match r.rtype with
  | DeltaRecordType.insert => loosePtrs
  | DeltaRecordType.delete =>
    (List.range layout.numColumns).foldl
      (fun acc i =>
        if layout.isVarlen i then
          match access i with
          | some v => if v.needReclaim then acc ++ [v.content] else acc
          | none => acc
        else acc)
      loosePtrs
  | DeltaRecordType.update =>
    r.delta.foldl
      (fun acc p =>
        if layout.isVarlen p.1 then
          match p.2 with
          | some v => if v.needReclaim then acc ++ [v.content] else acc
          | none => acc
        else acc)
      loosePtrs

/-- The payload reclaimed from one scanned column position, if any:
`some content` exactly when the column is varlen and the value is
non-null and needs reclamation. -/
def reclaimedAt (layout : BlockLayout) (col : Nat) (v : Option VarlenEntry) : Option Nat :=
  if layout.isVarlen col then
    match v with
    | some e => if e.needReclaim then some e.content else none
    | none => none
  else none

/-! ## Write-ahead log contents (for the read-only-workload property) -/

/-- Kinds of records in the log file (§4.4 of the spec). -/
inductive LogRecordKind where
  | redo
  | del
  | commit
deriving DecidableEq, Repr

/-- A transaction as the WAL sees it: the redo/delete records its writes
staged, and whether it aborted. -/
structure WalTxn where
  writes : List LogRecordKind
  aborted : Bool
deriving DecidableEq, Repr

/-- Modelled from the spec: `TransactionManager::Commit` and the log
manager are not under src/.  Per §4.2, a read-only commit hands nothing
to the WAL serializer; a writing commit hands its redo/delete records
followed by exactly one COMMIT record; `abort` discards the redo buffer
and emits no commit record. -/
def txnLogRecords (t : WalTxn) : List LogRecordKind :=
  if t.aborted then []
  else if t.writes.isEmpty then []
  else t.writes ++ [LogRecordKind.commit]

/-- Modelled from the spec: the log file after `persist_and_stop` is the
concatenation of the records each transaction handed to the serializer
(§4.4: the disk writer persists everything before returning). -/
def logFile (workload : List WalTxn) : List LogRecordKind :=
  workload.foldl (fun acc t => acc ++ txnLogRecords t) []

/-! ## Helper lemmas: the deallocate phase -/

theorem deallocateLoop_eq (q : List TxnCtx) :
    ∀ (requeue : List TxnCtx) (n : Nat) (deleted : List TxnCtx),
      deallocateLoop q requeue n deleted =
        (n + (q.filter (fun t => t.logProcessed)).length,
         (q.filter (fun t => !t.logProcessed)).reverse ++ requeue,
         deleted ++ q.filter (fun t => t.logProcessed)) := by
  induction q with
  | nil => intro requeue n deleted; simp [deallocateLoop]
  | cons t rest ih =>
    intro requeue n deleted
    by_cases h : t.logProcessed = true
    · simp [deallocateLoop, h, ih, Nat.add_assoc, Nat.add_comm 1]
    · rw [Bool.not_eq_true] at h
      simp [deallocateLoop, h, ih]

theorem processDeallocateQueue_deleted (oldest lu : Nat) (q : List TxnCtx) :
    (processDeallocateQueue oldest lu q).2.2 =
      if newerThan oldest lu then q.filter (fun t => t.logProcessed) else [] := by
  by_cases h : newerThan oldest lu = true
  · simp [processDeallocateQueue, h, deallocateLoop_eq]
  · rw [Bool.not_eq_true] at h
    simp [processDeallocateQueue, h]

theorem processDeallocateQueue_requeue (oldest lu : Nat) (q : List TxnCtx) :
    (processDeallocateQueue oldest lu q).2.1 =
      if newerThan oldest lu then (q.filter (fun t => !t.logProcessed)).reverse else q := by
  by_cases h : newerThan oldest lu = true
  · simp [processDeallocateQueue, h, deallocateLoop_eq]
  · rw [Bool.not_eq_true] at h
    simp [processDeallocateQueue, h]

/-- C1: the deallocate phase deletes a transaction exactly when the
oldest running begin-timestamp is newer than `last_unlinked_` and the
transaction's `log_processed_` flag is set; a queued transaction failing
either condition is still in the deallocation queue after the phase,
never deleted. -/
theorem dealloc_deletes_only_safe_txns (oldest lu : Nat) (q : List TxnCtx) :
    (∀ t, t ∈ (processDeallocateQueue oldest lu q).2.2 ↔
      (newerThan oldest lu = true ∧ t.logProcessed = true ∧ t ∈ q)) ∧
    (∀ t, t ∈ q → (newerThan oldest lu = false ∨ t.logProcessed = false) →
      t ∈ (processDeallocateQueue oldest lu q).2.1) := by
  constructor
  · intro t
    rw [processDeallocateQueue_deleted]
    by_cases h : newerThan oldest lu = true
    · simp [h, List.mem_filter, and_comm]
    · rw [Bool.not_eq_true] at h
      simp [h]
  · intro t ht hcond
    rw [processDeallocateQueue_requeue]
    by_cases h : newerThan oldest lu = true
    · rcases hcond with hc | hc
      · rw [h] at hc; cases hc
      · simp [h, List.mem_filter, ht, hc]
    · rw [Bool.not_eq_true] at h
      simp [h, ht]

theorem dealloc_deletes_only_safe_txns_witness :
    (({ tid := 10, undoBuffer := [], logProcessed := true, aborted := false } : TxnCtx) ∈
      (processDeallocateQueue 5 3
        [{ tid := 10, undoBuffer := [], logProcessed := true, aborted := false },
         { tid := 11, undoBuffer := [], logProcessed := false, aborted := false }]).2.2) ∧
    (({ tid := 11, undoBuffer := [], logProcessed := false, aborted := false } : TxnCtx) ∈
      (processDeallocateQueue 5 3
        [{ tid := 10, undoBuffer := [], logProcessed := true, aborted := false },
         { tid := 11, undoBuffer := [], logProcessed := false, aborted := false }]).2.1) := by
  refine ⟨((dealloc_deletes_only_safe_txns 5 3 _).1 _).mpr ⟨by decide, rfl, by decide⟩,
    (dealloc_deletes_only_safe_txns 5 3 _).2 _ (by decide) (Or.inr rfl)⟩

/-! ## Helper lemmas: the unlink phase -/

/-- The slots passed to `TruncateVersionChain` in a trace. -/
def truncSlots (l : List GCAction) : List Nat :=
  l.filterMap fun a =>
    match a with
    | GCAction.truncate _ sl => some sl
    | _ => none

theorem truncSlots_append (l1 l2 : List GCAction) :
    truncSlots (l1 ++ l2) = truncSlots l1 ++ truncSlots l2 :=
  List.filterMap_append l1 l2 _

theorem unlinkRecordStep_requeueQ (txn : TxnCtx) (r : UndoRec) (s : UnlinkState) :
    (unlinkRecordStep txn r s).requeueQ = s.requeueQ := by
  by_cases ha : txn.aborted = true <;>
  rcases htbl : r.table with _ | tbl <;>
  by_cases hv : r.slot ∈ s.visited <;>
  simp [unlinkRecordStep, htbl, ha, hv]

theorem unlinkRecordStep_deallocQ (txn : TxnCtx) (r : UndoRec) (s : UnlinkState) :
    (unlinkRecordStep txn r s).deallocQ = s.deallocQ := by
  by_cases ha : txn.aborted = true <;>
  rcases htbl : r.table with _ | tbl <;>
  by_cases hv : r.slot ∈ s.visited <;>
  simp [unlinkRecordStep, htbl, ha, hv]

theorem unlinkRecordStep_count (txn : TxnCtx) (r : UndoRec) (s : UnlinkState) :
    (unlinkRecordStep txn r s).count = s.count := by
  by_cases ha : txn.aborted = true <;>
  rcases htbl : r.table with _ | tbl <;>
  by_cases hv : r.slot ∈ s.visited <;>
  simp [unlinkRecordStep, htbl, ha, hv]

theorem unlinkRecordStep_trace_mono (txn : TxnCtx) (r : UndoRec) (s : UnlinkState)
    (a : GCAction) (h : a ∈ s.trace) : a ∈ (unlinkRecordStep txn r s).trace := by
  by_cases ha : txn.aborted = true <;>
  rcases htbl : r.table with _ | tbl <;>
  by_cases hv : r.slot ∈ s.visited <;>
  simp [unlinkRecordStep, htbl, ha, hv, h]

theorem unlinkRecordStep_visited_mono (txn : TxnCtx) (r : UndoRec) (s : UnlinkState)
    (sl : Nat) (h : sl ∈ s.visited) : sl ∈ (unlinkRecordStep txn r s).visited := by
  by_cases ha : txn.aborted = true <;>
  rcases htbl : r.table with _ | tbl <;>
  by_cases hv : r.slot ∈ s.visited <;>
  simp [unlinkRecordStep, htbl, ha, hv, h]

theorem unlinkRecordStep_slot_visited (txn : TxnCtx) (r : UndoRec) (s : UnlinkState)
    (h : r.table ≠ none) : r.slot ∈ (unlinkRecordStep txn r s).visited := by
  rcases htbl : r.table with _ | tbl
  · exact absurd htbl h
  by_cases ha : txn.aborted = true <;>
  by_cases hv : r.slot ∈ s.visited <;>
  simp [unlinkRecordStep, htbl, ha, hv]

theorem foldRecords_requeueQ (txn : TxnCtx) (rs : List UndoRec) :
    ∀ s : UnlinkState, (foldRecords txn rs s).requeueQ = s.requeueQ := by
  induction rs with
  | nil => intro s; rfl
  | cons r rest ih =>
    intro s
    show (foldRecords txn rest (unlinkRecordStep txn r s)).requeueQ = _
    rw [ih, unlinkRecordStep_requeueQ]

theorem foldRecords_deallocQ (txn : TxnCtx) (rs : List UndoRec) :
    ∀ s : UnlinkState, (foldRecords txn rs s).deallocQ = s.deallocQ := by
  induction rs with
  | nil => intro s; rfl
  | cons r rest ih =>
    intro s
    show (foldRecords txn rest (unlinkRecordStep txn r s)).deallocQ = _
    rw [ih, unlinkRecordStep_deallocQ]

theorem foldRecords_count (txn : TxnCtx) (rs : List UndoRec) :
    ∀ s : UnlinkState, (foldRecords txn rs s).count = s.count := by
  induction rs with
  | nil => intro s; rfl
  | cons r rest ih =>
    intro s
    show (foldRecords txn rest (unlinkRecordStep txn r s)).count = _
    rw [ih, unlinkRecordStep_count]

theorem foldRecords_trace_mono (txn : TxnCtx) (rs : List UndoRec) (a : GCAction) :
    ∀ s : UnlinkState, a ∈ s.trace → a ∈ (foldRecords txn rs s).trace := by
  induction rs with
  | nil => intro s h; exact h
  | cons r rest ih =>
    intro s h
    exact ih _ (unlinkRecordStep_trace_mono txn r s a h)

theorem foldRecords_visited_mono (txn : TxnCtx) (rs : List UndoRec) (sl : Nat) :
    ∀ s : UnlinkState, sl ∈ s.visited → sl ∈ (foldRecords txn rs s).visited := by
  induction rs with
  | nil => intro s h; exact h
  | cons r rest ih =>
    intro s h
    exact ih _ (unlinkRecordStep_visited_mono txn r s sl h)

theorem foldRecords_mem_slot (txn : TxnCtx) (rs : List UndoRec) (r : UndoRec)
    (hr : r ∈ rs) (htbl : r.table ≠ none) :
    ∀ s : UnlinkState, r.slot ∈ (foldRecords txn rs s).visited := by
  induction rs with
  | nil => cases hr
  | cons r0 rest ih =>
    intro s
    rcases List.mem_cons.mp hr with h | h
    · subst h
      exact foldRecords_visited_mono txn rest r.slot _
        (unlinkRecordStep_slot_visited txn r s htbl)
    · exact ih h _

theorem foldRecords_reclaim_mem (txn : TxnCtx) (rs : List UndoRec) (r : UndoRec)
    (hr : r ∈ rs) (hab : txn.aborted = false) :
    ∀ s : UnlinkState, GCAction.reclaimSlot txn r ∈ (foldRecords txn rs s).trace ∧
      GCAction.reclaimVarlen txn r ∈ (foldRecords txn rs s).trace := by
  induction rs with
  | nil => cases hr
  | cons r0 rest ih =>
    intro s
    rcases List.mem_cons.mp hr with h | h
    · subst h
      have hmem : GCAction.reclaimSlot txn r ∈ (unlinkRecordStep txn r s).trace ∧
          GCAction.reclaimVarlen txn r ∈ (unlinkRecordStep txn r s).trace := by
        rcases htbl : r.table with _ | tbl <;>
        by_cases hv : r.slot ∈ s.visited <;>
        simp [unlinkRecordStep, htbl, hab, hv]
      exact ⟨foldRecords_trace_mono txn rest _ _ hmem.1,
             foldRecords_trace_mono txn rest _ _ hmem.2⟩
    · exact ih h _

theorem unlinkTxnStep_count (oldest : Nat) (t : TxnCtx) (s : UnlinkState) :
    (unlinkTxnStep oldest t s).count =
      s.count + (if t.undoBuffer.isEmpty || newerThan oldest t.tid then 1 else 0) := by
  by_cases he : t.undoBuffer.isEmpty = true
  · simp [unlinkTxnStep, he]
  · by_cases hn : newerThan oldest t.tid = true
    · simp [unlinkTxnStep, he, hn, foldRecords_count]
    · simp [unlinkTxnStep, he, hn]

theorem unlinkTxnStep_trace_mono (oldest : Nat) (t : TxnCtx) (s : UnlinkState)
    (a : GCAction) (h : a ∈ s.trace) : a ∈ (unlinkTxnStep oldest t s).trace := by
  by_cases he : t.undoBuffer.isEmpty = true
  · simp [unlinkTxnStep, he, h]
  · by_cases hn : newerThan oldest t.tid = true
    · simp only [unlinkTxnStep, he, hn, if_false, if_true, Bool.false_eq_true, ite_false]
      exact List.mem_append_left _ (foldRecords_trace_mono t t.undoBuffer a s h)
    · simp [unlinkTxnStep, he, hn, h]

theorem unlinkTxnStep_deallocQ_mono (oldest : Nat) (t : TxnCtx) (s : UnlinkState)
    (x : TxnCtx) (h : x ∈ s.deallocQ) : x ∈ (unlinkTxnStep oldest t s).deallocQ := by
  by_cases he : t.undoBuffer.isEmpty = true
  · simpa [unlinkTxnStep, he] using h
  · by_cases hn : newerThan oldest t.tid = true
    · simp [unlinkTxnStep, he, hn, foldRecords_deallocQ, h]
    · simpa [unlinkTxnStep, he, hn] using h

theorem unlinkTxnStep_requeueQ_mono (oldest : Nat) (t : TxnCtx) (s : UnlinkState)
    (x : TxnCtx) (h : x ∈ s.requeueQ) : x ∈ (unlinkTxnStep oldest t s).requeueQ := by
  by_cases he : t.undoBuffer.isEmpty = true
  · simpa [unlinkTxnStep, he] using h
  · by_cases hn : newerThan oldest t.tid = true
    · simp [unlinkTxnStep, he, hn, foldRecords_requeueQ, h]
    · simp [unlinkTxnStep, he, hn, h]

theorem unlinkTxnStep_visited_mono (oldest : Nat) (t : TxnCtx) (s : UnlinkState)
    (sl : Nat) (h : sl ∈ s.visited) : sl ∈ (unlinkTxnStep oldest t s).visited := by
  by_cases he : t.undoBuffer.isEmpty = true
  · simpa [unlinkTxnStep, he] using h
  · by_cases hn : newerThan oldest t.tid = true
    · simp only [unlinkTxnStep, he, hn, Bool.false_eq_true, if_false, if_true, ite_false]
      exact foldRecords_visited_mono t t.undoBuffer sl s h
    · simpa [unlinkTxnStep, he, hn] using h

/-- How the unlink loop must have treated a transaction `t`, read off the
final loop state: an empty undo buffer means a `delete` call is in the
trace; a non-empty buffer with the safety condition means the transaction
was pushed onto the deallocation queue; otherwise it was requeued. -/
def handledTxn (oldest : Nat) (t : TxnCtx) (s : UnlinkState) : Prop :=
  (t.undoBuffer = [] → GCAction.deleteTxn t ∈ s.trace) ∧
  (t.undoBuffer ≠ [] → newerThan oldest t.tid = true →
    GCAction.pushDealloc t ∈ s.trace ∧ t ∈ s.deallocQ) ∧
  (t.undoBuffer ≠ [] → newerThan oldest t.tid = false → t ∈ s.requeueQ)

theorem handledTxn_mono (oldest : Nat) (t t2 : TxnCtx) (s : UnlinkState)
    (h : handledTxn oldest t s) : handledTxn oldest t (unlinkTxnStep oldest t2 s) := by
  obtain ⟨h1, h2, h3⟩ := h
  refine ⟨fun he => unlinkTxnStep_trace_mono _ _ _ _ (h1 he),
    fun he hn => ?_, fun he hn => unlinkTxnStep_requeueQ_mono _ _ _ _ (h3 he hn)⟩
  obtain ⟨ha, hb⟩ := h2 he hn
  exact ⟨unlinkTxnStep_trace_mono _ _ _ _ ha, unlinkTxnStep_deallocQ_mono _ _ _ _ hb⟩

theorem handledTxn_self (oldest : Nat) (t : TxnCtx) (s : UnlinkState) :
    handledTxn oldest t (unlinkTxnStep oldest t s) := by
  by_cases he : t.undoBuffer.isEmpty = true
  · have he' : t.undoBuffer = [] := List.isEmpty_iff.mp he
    refine ⟨fun _ => ?_, fun hne _ => absurd he' hne, fun hne _ => absurd he' hne⟩
    simp [unlinkTxnStep, he]
  · have he' : t.undoBuffer ≠ [] := fun h => he (by simp [h])
    by_cases hn : newerThan oldest t.tid = true
    · refine ⟨fun h0 => absurd h0 he', fun _ _ => ?_, fun _ h0 => (by rw [hn] at h0; cases h0)⟩
      constructor
      · simp [unlinkTxnStep, he, hn]
      · simp [unlinkTxnStep, he, hn]
    · refine ⟨fun h0 => absurd h0 he', fun _ h0 => (by rw [Bool.not_eq_true] at hn; rw [hn] at h0; cases h0),
        fun _ _ => ?_⟩
      simp [unlinkTxnStep, he, hn]

/-- The unlink loop over the whole queue. -/
def unlinkFold (oldest : Nat) (q : List TxnCtx) (s : UnlinkState) : UnlinkState :=
  q.foldl (fun acc t => unlinkTxnStep oldest t acc) s

theorem processUnlinkQueue_eq (oldest : Nat) (completed unlinkQ deallocQ : List TxnCtx) :
    processUnlinkQueue oldest completed unlinkQ deallocQ =
      unlinkFold oldest (completed ++ unlinkQ)
        { visited := [], requeueQ := [], deallocQ := deallocQ, count := 0, trace := [] } := rfl

theorem unlinkFold_handled_mono (oldest : Nat) (q : List TxnCtx) (t : TxnCtx) :
    ∀ s : UnlinkState, handledTxn oldest t s → handledTxn oldest t (unlinkFold oldest q s) := by
  induction q with
  | nil => intro s h; exact h
  | cons t0 rest ih =>
    intro s h
    exact ih _ (handledTxn_mono oldest t t0 s h)

theorem unlinkFold_handled (oldest : Nat) (q : List TxnCtx) (t : TxnCtx) (ht : t ∈ q) :
    ∀ s : UnlinkState, handledTxn oldest t (unlinkFold oldest q s) := by
  induction q with
  | nil => cases ht
  | cons t0 rest ih =>
    intro s
    rcases List.mem_cons.mp ht with h | h
    · subst h
      exact unlinkFold_handled_mono oldest rest t _ (handledTxn_self oldest t s)
    · exact ih h _

theorem unlinkFold_count (oldest : Nat) (q : List TxnCtx) :
    ∀ s : UnlinkState, (unlinkFold oldest q s).count =
      s.count + (q.filter (fun t => t.undoBuffer.isEmpty || newerThan oldest t.tid)).length := by
  induction q with
  | nil => intro s; simp [unlinkFold]
  | cons t rest ih =>
    intro s
    show (unlinkFold oldest rest (unlinkTxnStep oldest t s)).count = _
    rw [ih, unlinkTxnStep_count]
    by_cases h : (t.undoBuffer.isEmpty || newerThan oldest t.tid) = true
    · simp [h, Nat.add_assoc, Nat.add_comm 1]
    · rw [Bool.not_eq_true] at h
      simp [h]

theorem unlinkFold_visited_mono (oldest : Nat) (q : List TxnCtx) (sl : Nat) :
    ∀ s : UnlinkState, sl ∈ s.visited → sl ∈ (unlinkFold oldest q s).visited := by
  induction q with
  | nil => intro s h; exact h
  | cons t rest ih =>
    intro s h
    exact ih _ (unlinkTxnStep_visited_mono oldest t s sl h)

theorem unlinkFold_case2_slots (oldest : Nat) (q : List TxnCtx) (t : TxnCtx) (ht : t ∈ q)
    (hne : t.undoBuffer ≠ []) (hn : newerThan oldest t.tid = true)
    (r : UndoRec) (hr : r ∈ t.undoBuffer) (htbl : r.table ≠ none) :
    ∀ s : UnlinkState, r.slot ∈ (unlinkFold oldest q s).visited := by
  induction q with
  | nil => cases ht
  | cons t0 rest ih =>
    intro s
    rcases List.mem_cons.mp ht with h | h
    · subst h
      refine unlinkFold_visited_mono oldest rest r.slot _ ?_
      have he : t.undoBuffer.isEmpty = false := by
        cases hb : t.undoBuffer with
        | nil => exact absurd hb hne
        | cons a l => simp
      simp only [unlinkTxnStep, he, hn, Bool.false_eq_true, if_false, if_true, ite_false]
      exact foldRecords_mem_slot t t.undoBuffer r hr htbl s
    · exact ih h _

theorem truncSlots_nil : truncSlots [] = [] := rfl

theorem truncSlots_truncate (tbl sl : Nat) :
    truncSlots [GCAction.truncate tbl sl] = [sl] := rfl

theorem truncSlots_reclaim (t : TxnCtx) (r : UndoRec) :
    truncSlots [GCAction.reclaimSlot t r, GCAction.reclaimVarlen t r] = [] := rfl

theorem truncSlots_deleteTxn (t : TxnCtx) : truncSlots [GCAction.deleteTxn t] = [] := rfl

theorem truncSlots_pushDealloc (t : TxnCtx) : truncSlots [GCAction.pushDealloc t] = [] := rfl

theorem truncSlots_requeueTxn (t : TxnCtx) : truncSlots [GCAction.requeueTxn t] = [] := rfl

/-- What one record step can add to the trace. -/
theorem unlinkRecordStep_trace_cases (txn : TxnCtx) (r : UndoRec) (s : UnlinkState)
    (a : GCAction) (h : a ∈ (unlinkRecordStep txn r s).trace) :
    a ∈ s.trace ∨
      (∃ tbl, r.table = some tbl ∧ a = GCAction.truncate tbl r.slot ∧ r.slot ∉ s.visited) ∨
      (txn.aborted = false ∧
        (a = GCAction.reclaimSlot txn r ∨ a = GCAction.reclaimVarlen txn r)) := by
  by_cases ha : txn.aborted = true <;>
  rcases htbl : r.table with _ | tbl <;>
  by_cases hv : r.slot ∈ s.visited <;>
  simp [unlinkRecordStep, htbl, ha, hv] at h ⊢ <;>
  tauto

theorem foldRecords_trace_cases (txn : TxnCtx) (rs : List UndoRec) (a : GCAction) :
    ∀ s : UnlinkState, a ∈ (foldRecords txn rs s).trace →
      a ∈ s.trace ∨
        ∃ r, r ∈ rs ∧
          ((∃ tbl, r.table = some tbl ∧ a = GCAction.truncate tbl r.slot) ∨
           (txn.aborted = false ∧
             (a = GCAction.reclaimSlot txn r ∨ a = GCAction.reclaimVarlen txn r))) := by
  induction rs with
  | nil => intro s h; exact Or.inl h
  | cons r0 rest ih =>
    intro s h
    rcases ih _ h with h1 | ⟨r, hr, hcase⟩
    · rcases unlinkRecordStep_trace_cases txn r0 s a h1 with h2 | ⟨tbl, htbl, ha, _⟩ | h2
      · exact Or.inl h2
      · exact Or.inr ⟨r0, List.mem_cons_self _ _, Or.inl ⟨tbl, htbl, ha⟩⟩
      · exact Or.inr ⟨r0, List.mem_cons_self _ _, Or.inr h2⟩
    · exact Or.inr ⟨r, List.mem_cons_of_mem _ hr, hcase⟩

/-- What one transaction step can add to the trace. -/
theorem unlinkTxnStep_trace_cases (oldest : Nat) (t : TxnCtx) (s : UnlinkState)
    (a : GCAction) (h : a ∈ (unlinkTxnStep oldest t s).trace) :
    a ∈ s.trace ∨ a = GCAction.deleteTxn t ∨ a = GCAction.pushDealloc t ∨
      a = GCAction.requeueTxn t ∨
      ∃ r, r ∈ t.undoBuffer ∧
        ((∃ tbl, r.table = some tbl ∧ a = GCAction.truncate tbl r.slot) ∨
         (t.aborted = false ∧
           (a = GCAction.reclaimSlot t r ∨ a = GCAction.reclaimVarlen t r))) := by
  by_cases he : t.undoBuffer.isEmpty = true
  · simp only [unlinkTxnStep, he, if_true, ite_true, List.mem_append,
      List.mem_singleton] at h
    tauto
  · by_cases hn : newerThan oldest t.tid = true
    · simp only [unlinkTxnStep, he, hn, Bool.false_eq_true, if_false, if_true,
        ite_false, ite_true, List.mem_append, List.mem_singleton] at h
      rcases h with h | h
      · rcases foldRecords_trace_cases t t.undoBuffer a s h with h1 | ⟨r, hr, hcase⟩
        · exact Or.inl h1
        · exact Or.inr (Or.inr (Or.inr (Or.inr ⟨r, hr, hcase⟩)))
      · exact Or.inr (Or.inr (Or.inl h))
    · simp only [unlinkTxnStep, he, hn, Bool.false_eq_true, if_false, ite_false,
        List.mem_append, List.mem_singleton] at h
      tauto

/-- The `visited_slots` set and the truncate calls of the trace agree,
and no slot was truncated twice. -/
def visitedOk (s : UnlinkState) : Prop :=
  (∀ sl, sl ∈ s.visited ↔ sl ∈ truncSlots s.trace) ∧ (truncSlots s.trace).Nodup

theorem truncSlots_cons_truncate (tbl sl : Nat) (l : List GCAction) :
    truncSlots (GCAction.truncate tbl sl :: l) = sl :: truncSlots l := rfl

theorem truncSlots_cons_reclaimSlot (t : TxnCtx) (r : UndoRec) (l : List GCAction) :
    truncSlots (GCAction.reclaimSlot t r :: l) = truncSlots l := rfl

theorem truncSlots_cons_reclaimVarlen (t : TxnCtx) (r : UndoRec) (l : List GCAction) :
    truncSlots (GCAction.reclaimVarlen t r :: l) = truncSlots l := rfl

theorem truncSlots_cons_deleteTxn (t : TxnCtx) (l : List GCAction) :
    truncSlots (GCAction.deleteTxn t :: l) = truncSlots l := rfl

theorem truncSlots_cons_pushDealloc (t : TxnCtx) (l : List GCAction) :
    truncSlots (GCAction.pushDealloc t :: l) = truncSlots l := rfl

theorem truncSlots_cons_requeueTxn (t : TxnCtx) (l : List GCAction) :
    truncSlots (GCAction.requeueTxn t :: l) = truncSlots l := rfl

theorem unlinkRecordStep_visitedOk (txn : TxnCtx) (r : UndoRec) (s : UnlinkState)
    (h : visitedOk s) : visitedOk (unlinkRecordStep txn r s) := by
  obtain ⟨hiff, hnd⟩ := h
  have hslot : r.slot ∉ s.visited → r.slot ∉ truncSlots s.trace :=
    fun hv h1 => hv ((hiff r.slot).mpr h1)
  by_cases ha : txn.aborted = true <;>
  rcases htbl : r.table with _ | tbl <;>
  by_cases hv : r.slot ∈ s.visited <;>
  simp only [unlinkRecordStep, htbl, ha, hv, if_true, if_false, ite_true, ite_false,
    Bool.false_eq_true, not_false_iff] <;>
  refine ⟨fun sl => ?_, ?_⟩ <;>
  simp only [truncSlots_append, truncSlots_cons_truncate, truncSlots_cons_reclaimSlot,
    truncSlots_cons_reclaimVarlen, truncSlots_nil, List.append_nil, List.mem_append,
    List.mem_cons, List.mem_singleton, List.not_mem_nil, or_false, List.mem_cons,
    List.nodup_append, List.nodup_cons, List.nodup_nil, List.disjoint_cons_right,
    List.disjoint_nil_right, List.not_mem_nil, not_false_iff, and_true, true_and,
    hiff, hnd] <;>
  tauto

theorem foldRecords_visitedOk (txn : TxnCtx) (rs : List UndoRec) :
    ∀ s : UnlinkState, visitedOk s → visitedOk (foldRecords txn rs s) := by
  induction rs with
  | nil => intro s h; exact h
  | cons r rest ih =>
    intro s h
    exact ih _ (unlinkRecordStep_visitedOk txn r s h)

theorem unlinkTxnStep_visitedOk (oldest : Nat) (t : TxnCtx) (s : UnlinkState)
    (h : visitedOk s) : visitedOk (unlinkTxnStep oldest t s) := by
  by_cases he : t.undoBuffer.isEmpty = true
  · obtain ⟨hiff, hnd⟩ := h
    refine ⟨fun sl => ?_, ?_⟩ <;>
    simp [unlinkTxnStep, he, truncSlots_append, truncSlots_deleteTxn, hiff, hnd]
  · by_cases hn : newerThan oldest t.tid = true
    · have h1 := foldRecords_visitedOk t t.undoBuffer s h
      obtain ⟨hiff, hnd⟩ := h1
      refine ⟨fun sl => ?_, ?_⟩ <;>
      simp [unlinkTxnStep, he, hn, truncSlots_append, truncSlots_pushDealloc, hiff, hnd]
    · obtain ⟨hiff, hnd⟩ := h
      refine ⟨fun sl => ?_, ?_⟩ <;>
      simp [unlinkTxnStep, he, hn, truncSlots_append, truncSlots_requeueTxn, hiff, hnd]

theorem unlinkFold_visitedOk (oldest : Nat) (q : List TxnCtx) :
    ∀ s : UnlinkState, visitedOk s → visitedOk (unlinkFold oldest q s) := by
  induction q with
  | nil => intro s h; exact h
  | cons t rest ih =>
    intro s h
    exact ih _ (unlinkTxnStep_visitedOk oldest t s h)

theorem unlinkFold_trace_cases (oldest : Nat) (q : List TxnCtx) (a : GCAction) :
    ∀ s : UnlinkState, a ∈ (unlinkFold oldest q s).trace →
      a ∈ s.trace ∨
        ∃ t, t ∈ q ∧
          (a = GCAction.deleteTxn t ∨ a = GCAction.pushDealloc t ∨
           a = GCAction.requeueTxn t ∨
           ∃ r, r ∈ t.undoBuffer ∧
             ((∃ tbl, r.table = some tbl ∧ a = GCAction.truncate tbl r.slot) ∨
              (t.aborted = false ∧
                (a = GCAction.reclaimSlot t r ∨ a = GCAction.reclaimVarlen t r)))) := by
  induction q with
  | nil => intro s h; exact Or.inl h
  | cons t0 rest ih =>
    intro s h
    rcases ih _ h with h1 | ⟨t, ht, hcase⟩
    · rcases unlinkTxnStep_trace_cases oldest t0 s a h1 with h2 | h2 | h2 | h2 | h2
      · exact Or.inl h2
      · exact Or.inr ⟨t0, List.mem_cons_self _ _, Or.inl h2⟩
      · exact Or.inr ⟨t0, List.mem_cons_self _ _, Or.inr (Or.inl h2)⟩
      · exact Or.inr ⟨t0, List.mem_cons_self _ _, Or.inr (Or.inr (Or.inl h2))⟩
      · exact Or.inr ⟨t0, List.mem_cons_self _ _, Or.inr (Or.inr (Or.inr h2))⟩
    · exact Or.inr ⟨t, List.mem_cons_of_mem _ ht, hcase⟩

/-- Every transaction whose push onto `txns_to_deallocate_` is in the
trace is a member of the resulting deallocation queue. -/
def pushOk (s : UnlinkState) : Prop :=
  ∀ t, GCAction.pushDealloc t ∈ s.trace → t ∈ s.deallocQ

theorem foldRecords_pushOk (txn : TxnCtx) (rs : List UndoRec) (s : UnlinkState)
    (h : pushOk s) : pushOk (foldRecords txn rs s) := by
  intro t hmem
  rcases foldRecords_trace_cases txn rs _ s hmem with h1 | ⟨r, _, hcase⟩
  · rw [foldRecords_deallocQ]
    exact h t h1
  · rcases hcase with ⟨tbl, _, hbad⟩ | ⟨_, hbad | hbad⟩ <;> cases hbad

theorem unlinkTxnStep_pushOk (oldest : Nat) (t0 : TxnCtx) (s : UnlinkState)
    (h : pushOk s) : pushOk (unlinkTxnStep oldest t0 s) := by
  intro t hmem
  by_cases he : t0.undoBuffer.isEmpty = true
  · simp only [unlinkTxnStep, he, if_true, ite_true, List.mem_append,
      List.mem_singleton] at hmem ⊢
    rcases hmem with h1 | h1
    · exact h t h1
    · cases h1
  · by_cases hn : newerThan oldest t0.tid = true
    · simp only [unlinkTxnStep, he, hn, Bool.false_eq_true, if_false, if_true,
        ite_false, ite_true, List.mem_append, List.mem_singleton] at hmem ⊢
      rcases hmem with h1 | h1
      · exact List.mem_cons_of_mem _ (foldRecords_pushOk t0 t0.undoBuffer s h t h1)
      · rw [GCAction.pushDealloc.injEq] at h1
        exact h1 ▸ List.mem_cons_self _ _
    · simp only [unlinkTxnStep, he, hn, Bool.false_eq_true, if_false, ite_false,
        List.mem_append, List.mem_singleton] at hmem ⊢
      rcases hmem with h1 | h1
      · exact h t h1
      · cases h1

theorem unlinkFold_pushOk (oldest : Nat) (q : List TxnCtx) :
    ∀ s : UnlinkState, pushOk s → pushOk (unlinkFold oldest q s) := by
  induction q with
  | nil => intro s h; exact h
  | cons t rest ih =>
    intro s h
    exact ih _ (unlinkTxnStep_pushOk oldest t s h)

theorem unlinkFold_trace_mono (oldest : Nat) (q : List TxnCtx) (a : GCAction) :
    ∀ s : UnlinkState, a ∈ s.trace → a ∈ (unlinkFold oldest q s).trace := by
  induction q with
  | nil => intro s h; exact h
  | cons t rest ih =>
    intro s h
    exact ih _ (unlinkTxnStep_trace_mono oldest t s a h)

theorem unlinkFold_reclaims (oldest : Nat) (q : List TxnCtx) (t : TxnCtx) (ht : t ∈ q)
    (hne : t.undoBuffer ≠ []) (hn : newerThan oldest t.tid = true)
    (hab : t.aborted = false) (r : UndoRec) (hr : r ∈ t.undoBuffer) :
    ∀ s : UnlinkState, GCAction.reclaimSlot t r ∈ (unlinkFold oldest q s).trace ∧
      GCAction.reclaimVarlen t r ∈ (unlinkFold oldest q s).trace := by
  induction q with
  | nil => cases ht
  | cons t0 rest ih =>
    intro s
    rcases List.mem_cons.mp ht with h | h
    · subst h
      have he : t.undoBuffer.isEmpty = false := by
        cases hb : t.undoBuffer with
        | nil => exact absurd hb hne
        | cons a l => simp
      have hmem := foldRecords_reclaim_mem t t.undoBuffer r hr hab s
      constructor <;>
      · refine unlinkFold_trace_mono oldest rest _ _ ?_
        simp only [unlinkTxnStep, he, hn, Bool.false_eq_true, if_false, if_true,
          ite_false, ite_true, List.mem_append, List.mem_singleton]
        tauto
    · exact ih h _

theorem truncSlots_mem (sl : Nat) (l : List GCAction) (h : sl ∈ truncSlots l) :
    ∃ tbl, GCAction.truncate tbl sl ∈ l := by
  rw [truncSlots, List.mem_filterMap] at h
  obtain ⟨a, ha, hfa⟩ := h
  cases a with
  | truncate tbl sl0 =>
    refine ⟨tbl, ?_⟩
    simp only [Option.some.injEq] at hfa
    exact hfa ▸ ha
  | deleteTxn t => cases hfa
  | reclaimSlot t r => cases hfa
  | reclaimVarlen t r => cases hfa
  | pushDealloc t => cases hfa
  | requeueTxn t => cases hfa

theorem unlinkFold_reclaim_prov (oldest : Nat) (q : List TxnCtx) (s : UnlinkState)
    (hs : s.trace = []) (t : TxnCtx) (r : UndoRec)
    (h : GCAction.reclaimSlot t r ∈ (unlinkFold oldest q s).trace ∨
         GCAction.reclaimVarlen t r ∈ (unlinkFold oldest q s).trace) :
    t.aborted = false ∧ t ∈ q ∧ r ∈ t.undoBuffer := by
  rcases h with h | h <;>
  · rcases unlinkFold_trace_cases oldest q _ s h with h1 | ⟨t0, ht0, hcase⟩
    · rw [hs] at h1; cases h1
    · rcases hcase with h2 | h2 | h2 | ⟨r0, hr0, ⟨tbl, htbl0, h2⟩ | ⟨hab, h2 | h2⟩⟩ <;>
        first
        | (injection h2 with h3 h4; subst h3; subst h4; exact ⟨hab, ht0, hr0⟩)
        | (injection h2)

/-- C2: in the unlink phase every completed transaction is handled by
exactly one of three cases — an empty undo buffer means immediate
deletion; otherwise, when the oldest running begin-timestamp is newer
than its finish timestamp, each undo record's version chain is truncated
at most once per tick (distinct slots across the whole trace, guarded by
the visited-slot set), slot reclamation and varlen enqueueing run exactly
when the transaction did not abort, and the transaction is pushed onto
the deallocation queue; otherwise the transaction is requeued. -/
theorem unlink_phase_three_cases (oldest : Nat) (completed unlinkQ deallocQ : List TxnCtx) :
    (∀ t ∈ completed ++ unlinkQ,
      (t.undoBuffer = [] →
        GCAction.deleteTxn t ∈ (processUnlinkQueue oldest completed unlinkQ deallocQ).trace) ∧
      (t.undoBuffer ≠ [] → newerThan oldest t.tid = true →
        GCAction.pushDealloc t ∈ (processUnlinkQueue oldest completed unlinkQ deallocQ).trace ∧
        t ∈ (processUnlinkQueue oldest completed unlinkQ deallocQ).deallocQ) ∧
      (t.undoBuffer ≠ [] → newerThan oldest t.tid = false →
        t ∈ (processUnlinkQueue oldest completed unlinkQ deallocQ).requeueQ)) ∧
    (truncSlots (processUnlinkQueue oldest completed unlinkQ deallocQ).trace).Nodup ∧
    (∀ t r, (GCAction.reclaimSlot t r ∈
        (processUnlinkQueue oldest completed unlinkQ deallocQ).trace ∨
      GCAction.reclaimVarlen t r ∈
        (processUnlinkQueue oldest completed unlinkQ deallocQ).trace) →
      t.aborted = false ∧ t ∈ completed ++ unlinkQ ∧ r ∈ t.undoBuffer) ∧
    (∀ t ∈ completed ++ unlinkQ, t.undoBuffer ≠ [] → newerThan oldest t.tid = true →
      t.aborted = false → ∀ r ∈ t.undoBuffer,
        GCAction.reclaimSlot t r ∈
          (processUnlinkQueue oldest completed unlinkQ deallocQ).trace ∧
        GCAction.reclaimVarlen t r ∈
          (processUnlinkQueue oldest completed unlinkQ deallocQ).trace) ∧
    (∀ t ∈ completed ++ unlinkQ, t.undoBuffer ≠ [] → newerThan oldest t.tid = true →
      ∀ r ∈ t.undoBuffer, r.table ≠ none →
        ∃ tbl, GCAction.truncate tbl r.slot ∈
          (processUnlinkQueue oldest completed unlinkQ deallocQ).trace) := by
  rw [processUnlinkQueue_eq]
  have hvok : visitedOk (unlinkFold oldest (completed ++ unlinkQ)
      { visited := [], requeueQ := [], deallocQ := deallocQ, count := 0, trace := [] }) := by
    refine unlinkFold_visitedOk oldest _ _ ⟨fun sl => ?_, ?_⟩ <;> simp [truncSlots_nil]
  refine ⟨?_, hvok.2, ?_, ?_, ?_⟩
  · intro t ht
    exact unlinkFold_handled oldest _ t ht _
  · intro t r hmem
    exact unlinkFold_reclaim_prov oldest _ _ rfl t r hmem
  · intro t ht hne hn hab r hr
    exact unlinkFold_reclaims oldest _ t ht hne hn hab r hr _
  · intro t ht hne hn r hr htbl
    have hsl := unlinkFold_case2_slots oldest _ t ht hne hn r hr htbl
      { visited := [], requeueQ := [], deallocQ := deallocQ, count := 0, trace := [] }
    exact truncSlots_mem _ _ ((hvok.1 r.slot).mp hsl)

/-- Concrete undo record for witnesses: non-null table, slot 3. -/
def wRec : UndoRec := { table := some 7, slot := 3, rtype := DeltaRecordType.update, delta := [] }

/-- A read-only completed transaction (empty undo buffer). -/
def wTxnEmpty : TxnCtx := { tid := 1, undoBuffer := [], logProcessed := false, aborted := false }

/-- A committed writer no running transaction can still see (finish ts 10 < oldest 20). -/
def wTxnSafe : TxnCtx := { tid := 10, undoBuffer := [wRec], logProcessed := false, aborted := false }

/-- A committed writer still visible to some running transaction (finish ts 30 > oldest 20). -/
def wTxnVisible : TxnCtx := { tid := 30, undoBuffer := [wRec], logProcessed := false, aborted := false }

theorem unlink_phase_three_cases_witness :
    GCAction.deleteTxn wTxnEmpty ∈
      (processUnlinkQueue 20 [wTxnEmpty, wTxnSafe, wTxnVisible] [] []).trace ∧
    GCAction.pushDealloc wTxnSafe ∈
      (processUnlinkQueue 20 [wTxnEmpty, wTxnSafe, wTxnVisible] [] []).trace ∧
    wTxnSafe ∈ (processUnlinkQueue 20 [wTxnEmpty, wTxnSafe, wTxnVisible] [] []).deallocQ ∧
    wTxnVisible ∈ (processUnlinkQueue 20 [wTxnEmpty, wTxnSafe, wTxnVisible] [] []).requeueQ ∧
    GCAction.reclaimSlot wTxnSafe wRec ∈
      (processUnlinkQueue 20 [wTxnEmpty, wTxnSafe, wTxnVisible] [] []).trace ∧
    ∃ tbl, GCAction.truncate tbl wRec.slot ∈
      (processUnlinkQueue 20 [wTxnEmpty, wTxnSafe, wTxnVisible] [] []).trace := by
  have h := unlink_phase_three_cases 20 [wTxnEmpty, wTxnSafe, wTxnVisible] [] []
  refine ⟨(h.1 wTxnEmpty (by decide)).1 rfl,
    ((h.1 wTxnSafe (by decide)).2.1 (by decide) (by decide)).1,
    ((h.1 wTxnSafe (by decide)).2.1 (by decide) (by decide)).2,
    (h.1 wTxnVisible (by decide)).2.2 (by decide) (by decide),
    ((h.2.2.2.1 wTxnSafe (by decide) (by decide) (by decide) rfl wRec (by decide)).1),
    h.2.2.2.2 wTxnSafe (by decide) (by decide) (by decide) wRec (by decide) (by decide)⟩

/-! ## Helper lemmas: one GC tick -/

theorem perform_deleted_eq (tm : TMView) (s : GCState) :
    (performGarbageCollection tm s).deleted =
      (processDeallocateQueue tm.oldestDealloc s.lastUnlinked s.deallocQ).2.2 := rfl

theorem perform_trace_eq (tm : TMView) (s : GCState) :
    (performGarbageCollection tm s).trace =
      (processUnlinkQueue tm.oldestUnlink tm.completed s.unlinkQ
        (processDeallocateQueue tm.oldestDealloc s.lastUnlinked s.deallocQ).2.1).trace := rfl

theorem perform_deallocQ_eq (tm : TMView) (s : GCState) :
    (performGarbageCollection tm s).state.deallocQ =
      (processUnlinkQueue tm.oldestUnlink tm.completed s.unlinkQ
        (processDeallocateQueue tm.oldestDealloc s.lastUnlinked s.deallocQ).2.1).deallocQ := rfl

theorem perform_unlinked_eq (tm : TMView) (s : GCState) :
    (performGarbageCollection tm s).unlinked =
      (processUnlinkQueue tm.oldestUnlink tm.completed s.unlinkQ
        (processDeallocateQueue tm.oldestDealloc s.lastUnlinked s.deallocQ).2.1).count := rfl

theorem perform_lastUnlinked_eq (tm : TMView) (s : GCState) :
    (performGarbageCollection tm s).state.lastUnlinked =
      (if (performGarbageCollection tm s).unlinked > 0 then tm.now
       else s.lastUnlinked) := rfl

theorem processUnlinkQueue_count_pos (oldest : Nat) (completed unlinkQ deallocQ : List TxnCtx) :
    0 < (processUnlinkQueue oldest completed unlinkQ deallocQ).count ↔
      ∃ t, t ∈ completed ++ unlinkQ ∧
        (t.undoBuffer = [] ∨ newerThan oldest t.tid = true) := by
  rw [processUnlinkQueue_eq, unlinkFold_count]
  simp only [Nat.zero_add]
  rw [List.length_pos]
  constructor
  · intro h
    obtain ⟨t, ht⟩ := List.exists_mem_of_ne_nil _ h
    rw [List.mem_filter] at ht
    refine ⟨t, ht.1, ?_⟩
    have := ht.2
    rw [Bool.or_eq_true] at this
    rcases this with h1 | h1
    · exact Or.inl (List.isEmpty_iff.mp h1)
    · exact Or.inr h1
  · intro ⟨t, ht, hp⟩
    have hmem : t ∈ (completed ++ unlinkQ).filter
        (fun t => t.undoBuffer.isEmpty || newerThan oldest t.tid) := by
      rw [List.mem_filter]
      refine ⟨ht, ?_⟩
      rw [Bool.or_eq_true]
      rcases hp with h1 | h1
      · exact Or.inl (List.isEmpty_iff.mpr h1)
      · exact Or.inr h1
    exact List.ne_nil_of_mem hmem

/-- C4: after a tick, `last_unlinked_` equals `GetTimestamp()` when the
unlink phase processed at least one transaction (immediately deleted or
pushed for deallocation), is unchanged otherwise, and the unlink phase
processed at least one transaction exactly when some completed
transaction either had an empty undo buffer or had a finish timestamp
older than the oldest running begin-timestamp. -/
theorem last_unlinked_set_iff_unlinked (tm : TMView) (s : GCState) :
    ((performGarbageCollection tm s).unlinked > 0 →
      (performGarbageCollection tm s).state.lastUnlinked = tm.now) ∧
    ((performGarbageCollection tm s).unlinked = 0 →
      (performGarbageCollection tm s).state.lastUnlinked = s.lastUnlinked) ∧
    ((performGarbageCollection tm s).unlinked > 0 ↔
      ∃ t, t ∈ tm.completed ++ s.unlinkQ ∧
        (t.undoBuffer = [] ∨ newerThan tm.oldestUnlink t.tid = true)) := by
  refine ⟨fun h => ?_, fun h => ?_, ?_⟩
  · rw [perform_lastUnlinked_eq, if_pos h]
  · rw [perform_lastUnlinked_eq, if_neg (by rw [h]; exact Nat.lt_irrefl 0)]
  · rw [perform_unlinked_eq]
    exact processUnlinkQueue_count_pos tm.oldestUnlink tm.completed s.unlinkQ _

theorem last_unlinked_set_iff_unlinked_witness :
    ((performGarbageCollection
        { newDeferred := [], oldestDeferred := 0, oldestDealloc := 0, oldestUnlink := 20,
          completed := [wTxnSafe], now := 50 }
        { deferred := [], deallocQ := [], unlinkQ := [], lastUnlinked := 7 }).unlinked > 0) ∧
    ((performGarbageCollection
        { newDeferred := [], oldestDeferred := 0, oldestDealloc := 0, oldestUnlink := 20,
          completed := [wTxnSafe], now := 50 }
        { deferred := [], deallocQ := [], unlinkQ := [], lastUnlinked := 7 }).state.lastUnlinked
      = 50) := by
  refine ⟨by decide, (last_unlinked_set_iff_unlinked _ _).1 (by decide)⟩

/-- A transaction already logged and deallocatable, for witnesses. -/
def wTxnLogged : TxnCtx := { tid := 2, undoBuffer := [], logProcessed := true, aborted := false }

/-- C5: two ticks are needed to reclaim a committed writing transaction:
within one tick every transaction deleted by the deallocate phase was
already in the deallocation queue when the tick began (the phase runs
before the unlink phase), every transaction the unlink phase pushes is
still in the deallocation queue when the tick ends, and any deletion in
a (later) tick requires `log_processed_` and an oldest running
begin-timestamp newer than `last_unlinked_`. -/
theorem two_ticks_to_reclaim (tm : TMView) (s : GCState) :
    (∀ t ∈ (performGarbageCollection tm s).deleted, t ∈ s.deallocQ) ∧
    (∀ t, GCAction.pushDealloc t ∈ (performGarbageCollection tm s).trace →
      t ∈ (performGarbageCollection tm s).state.deallocQ) ∧
    (∀ t ∈ (performGarbageCollection tm s).deleted,
      t.logProcessed = true ∧ newerThan tm.oldestDealloc s.lastUnlinked = true) := by
  have hdel : ∀ t ∈ (performGarbageCollection tm s).deleted,
      t ∈ s.deallocQ ∧ t.logProcessed = true ∧
        newerThan tm.oldestDealloc s.lastUnlinked = true := by
    intro t ht
    rw [perform_deleted_eq, processDeallocateQueue_deleted] at ht
    by_cases hg : newerThan tm.oldestDealloc s.lastUnlinked = true
    · rw [if_pos hg] at ht
      rw [List.mem_filter] at ht
      exact ⟨ht.1, ht.2, hg⟩
    · rw [Bool.not_eq_true] at hg
      rw [hg] at ht
      simp at ht
  refine ⟨fun t ht => (hdel t ht).1, ?_, fun t ht => (hdel t ht).2⟩
  intro t ht
  rw [perform_trace_eq, processUnlinkQueue_eq] at ht
  rw [perform_deallocQ_eq, processUnlinkQueue_eq]
  exact unlinkFold_pushOk tm.oldestUnlink _ _ (fun t0 h0 => by cases h0) t ht

theorem two_ticks_to_reclaim_witness :
    (wTxnLogged ∈
      (performGarbageCollection
        { newDeferred := [], oldestDeferred := 0, oldestDealloc := 9, oldestUnlink := 20,
          completed := [wTxnSafe], now := 50 }
        { deferred := [], deallocQ := [wTxnLogged], unlinkQ := [], lastUnlinked := 7 }).deleted) ∧
    wTxnLogged ∈ [wTxnLogged] ∧
    (GCAction.pushDealloc wTxnSafe ∈
      (performGarbageCollection
        { newDeferred := [], oldestDeferred := 0, oldestDealloc := 9, oldestUnlink := 20,
          completed := [wTxnSafe], now := 50 }
        { deferred := [], deallocQ := [wTxnLogged], unlinkQ := [], lastUnlinked := 7 }).trace) ∧
    wTxnSafe ∈
      (performGarbageCollection
        { newDeferred := [], oldestDeferred := 0, oldestDealloc := 9, oldestUnlink := 20,
          completed := [wTxnSafe], now := 50 }
        { deferred := [], deallocQ := [wTxnLogged], unlinkQ := [], lastUnlinked := 7 }).state.deallocQ := by
  refine ⟨by decide, ?_, by decide, ?_⟩
  · exact (two_ticks_to_reclaim
      { newDeferred := [], oldestDeferred := 0, oldestDealloc := 9, oldestUnlink := 20,
        completed := [wTxnSafe], now := 50 }
      { deferred := [], deallocQ := [wTxnLogged], unlinkQ := [], lastUnlinked := 7 }).1
      wTxnLogged (by decide)
  · exact (two_ticks_to_reclaim
      { newDeferred := [], oldestDeferred := 0, oldestDealloc := 9, oldestUnlink := 20,
        completed := [wTxnSafe], now := 50 }
      { deferred := [], deallocQ := [wTxnLogged], unlinkQ := [], lastUnlinked := 7 }).2.1
      wTxnSafe (by decide)

/-- An undo record with a null owning-table pointer. -/
def wRecNull : UndoRec := { table := none, slot := 9, rtype := DeltaRecordType.update, delta := [] }

/-- An aborted transaction whose last conflicting record has a null table. -/
def wTxnAborted : TxnCtx := { tid := 5, undoBuffer := [wRecNull], logProcessed := false, aborted := true }

theorem unlinkFold_trunc_prov (oldest : Nat) (q : List TxnCtx) (s : UnlinkState)
    (hs : s.trace = []) (tbl sl : Nat)
    (h : GCAction.truncate tbl sl ∈ (unlinkFold oldest q s).trace) :
    ∃ t, t ∈ q ∧ ∃ r, r ∈ t.undoBuffer ∧ r.table = some tbl ∧ r.slot = sl := by
  rcases unlinkFold_trace_cases oldest q _ s h with h1 | ⟨t0, ht0, hcase⟩
  · rw [hs] at h1; cases h1
  · rcases hcase with h2 | h2 | h2 | ⟨r0, hr0, ⟨tbl0, htbl0, h2⟩ | ⟨hab, h2 | h2⟩⟩ <;>
      first
      | (injection h2 with h3 h4; subst h3;
         exact ⟨t0, ht0, r0, hr0, htbl0, h4.symm⟩)
      | (injection h2)

/-- C10: the unlink phase never passes an undo record with a null
owning-table pointer to `TruncateVersionChain` (every truncate call in
the trace stems from a record with a non-null table), and — since the
reclamation calls run only for transactions that did not abort, while a
null table occurs only in aborted transactions — no reclamation call ever
touches a record with a null table pointer. -/
theorem null_table_never_dereferenced (oldest : Nat)
    (completed unlinkQ deallocQ : List TxnCtx)
    (H : ∀ t ∈ completed ++ unlinkQ, ∀ r ∈ t.undoBuffer,
      r.table = none → t.aborted = true) :
    (∀ tbl sl, GCAction.truncate tbl sl ∈
        (processUnlinkQueue oldest completed unlinkQ deallocQ).trace →
      ∃ t, t ∈ completed ++ unlinkQ ∧
        ∃ r, r ∈ t.undoBuffer ∧ r.table = some tbl ∧ r.slot = sl) ∧
    (∀ t r, (GCAction.reclaimSlot t r ∈
        (processUnlinkQueue oldest completed unlinkQ deallocQ).trace ∨
      GCAction.reclaimVarlen t r ∈
        (processUnlinkQueue oldest completed unlinkQ deallocQ).trace) →
      r.table ≠ none) := by
  rw [processUnlinkQueue_eq]
  constructor
  · intro tbl sl h
    exact unlinkFold_trunc_prov oldest _ _ rfl tbl sl h
  · intro t r h
    obtain ⟨hab, ht, hr⟩ := unlinkFold_reclaim_prov oldest _ _ rfl t r h
    intro hnone
    rw [H t ht r hr hnone] at hab
    cases hab

theorem null_table_never_dereferenced_witness :
    ((∀ t ∈ [wTxnAborted, wTxnSafe] ++ ([] : List TxnCtx), ∀ r ∈ t.undoBuffer,
        r.table = none → t.aborted = true) ∧
      wRec.table ≠ none) ∧
    ∃ t, t ∈ [wTxnAborted, wTxnSafe] ++ ([] : List TxnCtx) ∧
      ∃ r, r ∈ t.undoBuffer ∧ r.table = some 7 ∧ r.slot = 3 := by
  have H : ∀ t ∈ [wTxnAborted, wTxnSafe] ++ ([] : List TxnCtx), ∀ r ∈ t.undoBuffer,
      r.table = none → t.aborted = true := by decide
  refine ⟨⟨H, ?_⟩, ?_⟩
  · exact (null_table_never_dereferenced 20 [wTxnAborted, wTxnSafe] [] [] H).2
      wTxnSafe wRec (Or.inl (by decide))
  · exact (null_table_never_dereferenced 20 [wTxnAborted, wTxnSafe] [] [] H).1
      7 3 (by decide)

/-! ## Helper lemmas: deferred actions -/

theorem pushByTs_mem (b : Nat × Nat) (l : List (Nat × Nat)) (a : Nat × Nat) :
    a ∈ pushByTs b l ↔ a = b ∨ a ∈ l := by
  induction l with
  | nil => simp [pushByTs]
  | cons b0 rest ih =>
    by_cases h : b.1 < b0.1
    · simp [pushByTs, h]
    · simp only [pushByTs, h, if_false, ite_false, List.mem_cons, ih]
      tauto

theorem pushByTs_pairwise (b : Nat × Nat) (l : List (Nat × Nat))
    (hs : List.Pairwise (fun a c => a.1 ≤ c.1) l) :
    List.Pairwise (fun a c => a.1 ≤ c.1) (pushByTs b l) := by
  induction l with
  | nil => simp [pushByTs]
  | cons b0 rest ih =>
    rw [List.pairwise_cons] at hs
    by_cases h : b.1 < b0.1
    · rw [pushByTs, if_pos h, List.pairwise_cons]
      refine ⟨?_, List.pairwise_cons.mpr hs⟩
      intro c hc
      rcases List.mem_cons.mp hc with h1 | h1
      · exact h1 ▸ Nat.le_of_lt h
      · exact Nat.le_trans (Nat.le_of_lt h) (hs.1 c h1)
    · rw [pushByTs, if_neg h, List.pairwise_cons]
      refine ⟨?_, ih hs.2⟩
      intro c hc
      rcases (pushByTs_mem b rest c).mp hc with h1 | h1
      · exact h1 ▸ Nat.le_of_not_lt h
      · exact hs.1 c h1

theorem foldPush_mem (newActions : List (Nat × Nat)) (a : Nat × Nat) :
    ∀ pending : List (Nat × Nat),
      a ∈ newActions.foldl (fun acc x => pushByTs x acc) pending ↔
        a ∈ pending ∨ a ∈ newActions := by
  induction newActions with
  | nil => intro pending; simp
  | cons x rest ih =>
    intro pending
    rw [List.foldl_cons, ih, pushByTs_mem]
    simp only [List.mem_cons]
    tauto

theorem foldPush_pairwise (newActions : List (Nat × Nat)) :
    ∀ pending : List (Nat × Nat), List.Pairwise (fun a c => a.1 ≤ c.1) pending →
      List.Pairwise (fun a c => a.1 ≤ c.1)
        (newActions.foldl (fun acc x => pushByTs x acc) pending) := by
  induction newActions with
  | nil => intro pending h; exact h
  | cons x rest ih =>
    intro pending h
    exact ih _ (pushByTs_pairwise x pending h)

theorem drainDeferred_inv_mem (oldest : Nat) (l : List (Nat × Nat))
    (hs : List.Pairwise (fun a c => a.1 ≤ c.1) l) (a : Nat × Nat) :
    a ∈ (drainDeferred oldest l).1 ↔ a ∈ l ∧ a.1 ≤ oldest := by
  induction l with
  | nil => simp [drainDeferred]
  | cons b rest ih =>
    rw [List.pairwise_cons] at hs
    by_cases h : b.1 ≤ oldest
    · rw [drainDeferred, if_pos h]
      simp only [List.mem_cons, ih hs.2]
      constructor
      · rintro (h1 | ⟨h1, h2⟩)
        · exact ⟨Or.inl h1, h1 ▸ h⟩
        · exact ⟨Or.inr h1, h2⟩
      · rintro ⟨h1 | h1, h2⟩
        · exact Or.inl h1
        · exact Or.inr ⟨h1, h2⟩
    · rw [drainDeferred, if_neg h]
      simp only [List.not_mem_nil, false_iff, List.mem_cons]
      rintro ⟨h1 | h1, h2⟩
      · exact h (h1 ▸ h2)
      · exact h (Nat.le_trans (hs.1 a h1) h2)

theorem drainDeferred_rem_mem (oldest : Nat) (l : List (Nat × Nat))
    (hs : List.Pairwise (fun a c => a.1 ≤ c.1) l) (a : Nat × Nat) :
    a ∈ (drainDeferred oldest l).2 ↔ a ∈ l ∧ oldest < a.1 := by
  induction l with
  | nil => simp [drainDeferred]
  | cons b rest ih =>
    rw [List.pairwise_cons] at hs
    by_cases h : b.1 ≤ oldest
    · rw [drainDeferred, if_pos h]
      rw [ih hs.2]
      simp only [List.mem_cons]
      constructor
      · rintro ⟨h1, h2⟩
        exact ⟨Or.inr h1, h2⟩
      · rintro ⟨h1 | h1, h2⟩
        · exact absurd (h1 ▸ h) (Nat.not_le_of_lt h2)
        · exact ⟨h1, h2⟩
    · rw [drainDeferred, if_neg h]
      simp only [List.mem_cons]
      constructor
      · rintro (h1 | h1)
        · exact ⟨Or.inl h1, h1 ▸ Nat.lt_of_not_le h⟩
        · exact ⟨Or.inr h1, Nat.lt_of_lt_of_le (Nat.lt_of_not_le h) (hs.1 a h1)⟩
      · rintro ⟨h1, _⟩
        exact h1

/-- C6: in the deferred-actions phase, with the pending queue ordered by
timestamp (the spec's priority queue), exactly the pending or newly
handed-over actions whose timestamp is at most the oldest running
begin-timestamp are popped and invoked, and every action with a larger
timestamp stays pending, uninvoked. -/
theorem deferred_actions_drained_to_horizon (oldest : Nat)
    (newActions pending : List (Nat × Nat))
    (hs : List.Pairwise (fun a c => a.1 ≤ c.1) pending) :
    (∀ a, a ∈ (processDeferredActions oldest newActions pending).1 ↔
      ((a ∈ pending ∨ a ∈ newActions) ∧ a.1 ≤ oldest)) ∧
    (∀ a, a ∈ (processDeferredActions oldest newActions pending).2 ↔
      ((a ∈ pending ∨ a ∈ newActions) ∧ oldest < a.1)) := by
  have hsp := foldPush_pairwise newActions pending hs
  constructor
  · intro a
    rw [processDeferredActions, drainDeferred_inv_mem oldest _ hsp a, foldPush_mem]
  · intro a
    rw [processDeferredActions, drainDeferred_rem_mem oldest _ hsp a, foldPush_mem]

theorem deferred_actions_drained_to_horizon_witness :
    ((3, 1) ∈ (processDeferredActions 10 [(5, 3)] [(3, 1), (12, 2)]).1 ∧
     (5, 3) ∈ (processDeferredActions 10 [(5, 3)] [(3, 1), (12, 2)]).1) ∧
    (12, 2) ∈ (processDeferredActions 10 [(5, 3)] [(3, 1), (12, 2)]).2 := by
  have hs : List.Pairwise (fun (a : Nat × Nat) (c : Nat × Nat) => a.1 ≤ c.1)
      [(3, 1), (12, 2)] := by decide
  refine ⟨⟨?_, ?_⟩, ?_⟩
  · exact ((deferred_actions_drained_to_horizon 10 [(5, 3)] [(3, 1), (12, 2)] hs).1
      (3, 1)).mpr (by decide)
  · exact ((deferred_actions_drained_to_horizon 10 [(5, 3)] [(3, 1), (12, 2)] hs).1
      (5, 3)).mpr (by decide)
  · exact ((deferred_actions_drained_to_horizon 10 [(5, 3)] [(3, 1), (12, 2)] hs).2
      (12, 2)).mpr (by decide)

/-! ## Helper lemmas: varlen reclamation -/

theorem foldl_append_toList {α : Type} (g : α → Option Nat)
    (step : List Nat → α → List Nat)
    (hstep : ∀ acc x, step acc x = acc ++ (g x).toList) (l : List α) :
    ∀ acc : List Nat, l.foldl step acc = acc ++ l.filterMap g := by
  induction l with
  | nil => intro acc; simp
  | cons x rest ih =>
    intro acc
    rw [List.foldl_cons, hstep, ih, List.filterMap_cons]
    cases hx : g x <;> simp [List.append_assoc]

theorem reclaim_step_delete (layout : BlockLayout) (access : Nat → Option VarlenEntry)
    (acc : List Nat) (i : Nat) :
    (if layout.isVarlen i then
      match access i with
      | some v => if v.needReclaim then acc ++ [v.content] else acc
      | none => acc
    else acc) = acc ++ (reclaimedAt layout i (access i)).toList := by
  by_cases hv : layout.isVarlen i = true
  · cases ha : access i with
    | none => simp [reclaimedAt, hv, ha]
    | some v =>
      by_cases hn : v.needReclaim = true
      · simp [reclaimedAt, hv, ha, hn]
      · rw [Bool.not_eq_true] at hn
        simp [reclaimedAt, hv, ha, hn]
  · rw [Bool.not_eq_true] at hv
    simp [reclaimedAt, hv]

theorem reclaim_step_update (layout : BlockLayout) (acc : List Nat)
    (p : Nat × Option VarlenEntry) :
    (if layout.isVarlen p.1 then
      match p.2 with
      | some v => if v.needReclaim then acc ++ [v.content] else acc
      | none => acc
    else acc) = acc ++ (reclaimedAt layout p.1 p.2).toList := by
  by_cases hv : layout.isVarlen p.1 = true
  · cases ha : p.2 with
    | none => simp [reclaimedAt, hv, ha]
    | some v =>
      by_cases hn : v.needReclaim = true
      · simp [reclaimedAt, hv, ha, hn]
      · rw [Bool.not_eq_true] at hn
        simp [reclaimedAt, hv, ha, hn]
  · rw [Bool.not_eq_true] at hv
    simp [reclaimedAt, hv]

/-- C8: `ReclaimBufferIfVarlen` appends to the owning transaction's
loose-pointer list exactly the payloads selected by the record kind:
nothing for INSERT; for DELETE, the payloads of every varlen column of
the base tuple that are non-null and need reclamation; for UPDATE, the
payloads of exactly the delta's columns that are varlen, non-null and
need reclamation. -/
theorem reclaim_exactly_needed_varlens (layout : BlockLayout)
    (access : Nat → Option VarlenEntry) (r : UndoRec) (lp : List Nat) :
    reclaimBufferIfVarlen layout access r lp =
      lp ++ (match r.rtype with
        | DeltaRecordType.insert => []
        | DeltaRecordType.delete =>
          (List.range layout.numColumns).filterMap
            (fun i => reclaimedAt layout i (access i))
        | DeltaRecordType.update =>
          r.delta.filterMap (fun p => reclaimedAt layout p.1 p.2)) := by
  cases hr : r.rtype with
  | insert => simp [reclaimBufferIfVarlen, hr]
  | delete =>
    simp only [reclaimBufferIfVarlen, hr]
    exact foldl_append_toList (fun i => reclaimedAt layout i (access i)) _
      (reclaim_step_delete layout access) (List.range layout.numColumns) lp
  | update =>
    simp only [reclaimBufferIfVarlen, hr]
    exact foldl_append_toList (fun p => reclaimedAt layout p.1 p.2) _
      (reclaim_step_update layout) r.delta lp

/-! ## Helper lemmas: the log file -/

theorem logFile_of_empty_records (workload : List WalTxn)
    (h : ∀ t ∈ workload, txnLogRecords t = []) :
    ∀ acc : List LogRecordKind,
      workload.foldl (fun acc t => acc ++ txnLogRecords t) acc = acc := by
  induction workload with
  | nil => intro acc; rfl
  | cons t rest ih =>
    intro acc
    rw [List.foldl_cons, h t (List.mem_cons_self _ _), List.append_nil]
    exact ih (fun t0 h0 => h t0 (List.mem_cons_of_mem _ h0)) acc

/-- C7: a workload of exclusively read-only transactions leaves the log
file with zero records after `persist_and_stop`; moreover no read-only or
aborted transaction ever contributes records (in particular no COMMIT
record) to the log. -/
theorem read_only_workload_empty_log (workload : List WalTxn)
    (h : ∀ t ∈ workload, t.writes = []) :
    logFile workload = [] ∧
    ∀ t : WalTxn, t.aborted = true ∨ t.writes = [] → txnLogRecords t = [] := by
  have hrec : ∀ t : WalTxn, t.aborted = true ∨ t.writes = [] → txnLogRecords t = [] := by
    intro t ht
    rcases ht with ht | ht
    · rw [txnLogRecords, if_pos ht]
    · rw [txnLogRecords]
      by_cases ha : t.aborted = true
      · rw [if_pos ha]
      · rw [Bool.not_eq_true] at ha
        rw [ha]
        simp [ht]
  refine ⟨?_, hrec⟩
  exact logFile_of_empty_records workload (fun t ht => hrec t (Or.inr (h t ht))) []

theorem read_only_workload_empty_log_witness :
    logFile [{ writes := [], aborted := false }, { writes := [], aborted := true }] = [] :=
  (read_only_workload_empty_log
    [{ writes := [], aborted := false }, { writes := [], aborted := true }]
    (by decide)).1

/-! ## Helper lemmas: version-chain truncation -/

theorem chainTraverse_reaches (mem : ChainMem) (oldest : Nat) :
    ∀ (fuel c curr : Nat), chainTraverse mem oldest fuel c = TravResult.breakAt curr →
      ∃ k, nthNext mem k c = some curr := by
  intro fuel
  induction fuel with
  | zero => intro c curr h; cases h
  | succ f ih =>
    intro c curr h
    rw [chainTraverse] at h
    cases hn : mem.next c with
    | none => rw [hn] at h; cases h
    | some nxt =>
      rw [hn] at h
      dsimp only at h
      by_cases hts : newerThan oldest (mem.ts nxt) = true
      · rw [if_pos hts] at h
        injection h with h1
        exact ⟨0, by rw [h1]; rfl⟩
      · rw [Bool.not_eq_true] at hts
        rw [hts] at h
        simp only [Bool.false_eq_true, if_false, ite_false] at h
        obtain ⟨k, hk⟩ := ih nxt curr h
        exact ⟨k + 1, by rw [nthNext, hn]; exact hk⟩

/-- C3 (amended): one pass of `TruncateVersionChain` ends in the
restart call exactly when either the whole chain could be cut but the
head CAS failed, or the interior traversal stopped at the head itself
(`curr == version_ptr`), the head was uncommitted, and the re-read head
pointer differs from the original head.  In particular a pass whose
traversal advanced past the head never restarts. -/
theorem truncate_restart_characterization (oldest : Nat) (casOk : Bool)
    (har : Option Nat) (mem : ChainMem) (fuel : Nat) :
    isRestart (truncatePass oldest casOk har mem fuel) = true ↔
      ∃ vp, mem.head = some vp ∧
        ((newerThan oldest (mem.ts vp) = true ∧ casOk = false) ∨
         (newerThan oldest (mem.ts vp) = false ∧
          chainTraverse mem oldest fuel vp = TravResult.breakAt vp ∧
          tsCommitted (mem.ts vp) = false ∧ har ≠ some vp)) := by
  rw [truncatePass]
  cases hh : mem.head with
  | none =>
    dsimp only
    simp [isRestart]
  | some vp =>
    dsimp only
    by_cases hcut : newerThan oldest (mem.ts vp) = true
    · rw [if_pos hcut]
      by_cases hcas : casOk = true
      · rw [if_pos hcas]
        simp only [isRestart, Bool.false_eq_true, false_iff, not_exists]
        rintro vp0 ⟨heq, ⟨_, hc⟩ | ⟨hfalse, _⟩⟩
        · rw [hcas] at hc; cases hc
        · injection heq with heq0
          subst heq0
          rw [hcut] at hfalse; cases hfalse
      · rw [if_neg hcas]
        simp only [isRestart, true_iff]
        rw [Bool.not_eq_true] at hcas
        exact ⟨vp, rfl, Or.inl ⟨hcut, hcas⟩⟩
    · rw [Bool.not_eq_true] at hcut
      rw [hcut]
      simp only [Bool.false_eq_true, if_false, ite_false]
      cases htrav : chainTraverse mem oldest fuel vp with
      | outOfFuel =>
        simp only [isRestart, Bool.false_eq_true, false_iff, not_exists]
        rintro vp0 ⟨heq, ⟨hc, _⟩ | ⟨_, hc, _⟩⟩ <;> injection heq with heq0 <;> subst heq0
        · rw [hcut] at hc; cases hc
        · rw [htrav] at hc; cases hc
      | nullNext =>
        simp only [isRestart, Bool.false_eq_true, false_iff, not_exists]
        rintro vp0 ⟨heq, ⟨hc, _⟩ | ⟨_, hc, _⟩⟩ <;> injection heq with heq0 <;> subst heq0
        · rw [hcut] at hc; cases hc
        · rw [htrav] at hc; cases hc
      | breakAt curr =>
        dsimp only
        by_cases hcond : curr = vp ∧ tsCommitted (mem.ts vp) = false ∧ har ≠ some vp
        · rw [if_pos hcond]
          simp only [isRestart, true_iff]
          obtain ⟨h1, h2, h3⟩ := hcond
          subst h1
          exact ⟨curr, rfl, Or.inr ⟨hcut, htrav, h2, h3⟩⟩
        · rw [if_neg hcond]
          simp only [isRestart, Bool.false_eq_true, false_iff, not_exists]
          rintro vp0 ⟨heq, ⟨hc, _⟩ | ⟨_, hc, h2, h3⟩⟩ <;> injection heq with heq0 <;> subst heq0
          · rw [hcut] at hc; cases hc
          · rw [htrav] at hc
            injection hc with hc0
            exact hcond ⟨hc0, h2, h3⟩

/-- A chain whose uncommitted head is followed by a committed node that
is still visible (ts 10 ≥ oldest 5) and then one that is not (ts 3):
the traversal advances past the head before cutting. -/
def cexMem : ChainMem :=
  { head := some 1,
    next := fun n => if n = 1 then some 2 else if n = 2 then some 3 else none,
    ts := fun n => if n = 1 then RUNNING_BIT + 5 else if n = 2 then 10 else 3 }

/-- C3 counterexample: the head of `cexMem` is uncommitted (running bit
set) and the head pointer read back after the traversal (`none`) differs
from the original head, yet the pass does not restart — the claim's
condition is not sufficient because the traversal stopped past the head
(`curr ≠ version_ptr`). -/
theorem truncate_restart_claim_counterexample :
    cexMem.head = some 1 ∧
    tsCommitted (cexMem.ts 1) = false ∧
    (none : Option Nat) ≠ some 1 ∧
    isRestart (truncatePass 5 true none cexMem 10) = false := by
  refine ⟨rfl, by decide, by simp, by decide⟩

/-- C9: when the head read by `TruncateVersionChain` is non-null and not
older than the oldest running timestamp (so the whole-chain CAS branch is
not taken), the pass leaves the slot's head pointer and every timestamp
unchanged, and mutates at most the next pointer of one single node
reachable from the head, which is stored to null. -/
theorem truncate_interior_frame (oldest : Nat) (casOk : Bool) (har : Option Nat)
    (mem : ChainMem) (fuel : Nat) (vp : Nat)
    (hhead : mem.head = some vp)
    (hcut : newerThan oldest (mem.ts vp) = false)
    (m1 : ChainMem)
    (hres : passMem (truncatePass oldest casOk har mem fuel) = some m1) :
    m1.head = mem.head ∧ m1.ts = mem.ts ∧
      (m1.next = mem.next ∨
        ∃ k curr, nthNext mem k vp = some curr ∧
          m1.next = Function.update mem.next curr none) := by
  rw [truncatePass, hhead] at hres
  dsimp only at hres
  rw [hcut] at hres
  simp only [Bool.false_eq_true, if_false, ite_false] at hres
  cases htrav : chainTraverse mem oldest fuel vp with
  | outOfFuel =>
    rw [htrav] at hres
    cases hres
  | nullNext =>
    rw [htrav] at hres
    dsimp only [passMem] at hres
    injection hres with h1
    subst h1
    exact ⟨rfl, rfl, Or.inl rfl⟩
  | breakAt curr =>
    rw [htrav] at hres
    dsimp only at hres
    by_cases hcond : curr = vp ∧ tsCommitted (mem.ts vp) = false ∧ har ≠ some vp
    · rw [if_pos hcond] at hres
      dsimp only [passMem] at hres
      injection hres with h1
      subst h1
      exact ⟨hhead.symm, rfl,
        Or.inr ⟨(chainTraverse_reaches mem oldest fuel vp curr htrav).choose, curr,
          (chainTraverse_reaches mem oldest fuel vp curr htrav).choose_spec, rfl⟩⟩
    · rw [if_neg hcond] at hres
      dsimp only [passMem] at hres
      injection hres with h1
      subst h1
      exact ⟨hhead.symm, rfl,
        Or.inr ⟨(chainTraverse_reaches mem oldest fuel vp curr htrav).choose, curr,
          (chainTraverse_reaches mem oldest fuel vp curr htrav).choose_spec, rfl⟩⟩

/-- A two-node chain with a committed, still-visible head. -/
def wMem : ChainMem :=
  { head := some 1,
    next := fun n => if n = 1 then some 2 else none,
    ts := fun n => if n = 1 then 10 else 3 }

theorem truncate_interior_frame_witness :
    (wMem.head = some 1 ∧ newerThan 5 (wMem.ts 1) = false ∧
      passMem (truncatePass 5 true (some 1) wMem 10) =
        some { wMem with next := Function.update wMem.next 1 none }) ∧
    (({ wMem with next := Function.update wMem.next 1 none } : ChainMem).head = wMem.head ∧
     ({ wMem with next := Function.update wMem.next 1 none } : ChainMem).ts = wMem.ts ∧
     (({ wMem with next := Function.update wMem.next 1 none } : ChainMem).next = wMem.next ∨
       ∃ k curr, nthNext wMem k 1 = some curr ∧
         ({ wMem with next := Function.update wMem.next 1 none } : ChainMem).next =
           Function.update wMem.next curr none)) := by
  refine ⟨⟨rfl, by decide, rfl⟩,
    truncate_interior_frame 5 true (some 1) wMem 10 1 rfl (by decide) _ rfl⟩

end Terrier
